import Mathlib

/-!
Verification of `cprofilev.py` (ZoomerAnalytics/cprofilev).

Strings are modelled as lists of characters (`Str`).  The pure string
processing of the `Stats` class (`process_line`, `get_updated_href`,
`read`) is translated directly from the source.  The stateful parts
(the `pstats` stream, sorting, the per-request `Stats` session) are
modelled by explicit state passing over a `StatsObj` record; the
external aggregation library (`pstats`) and transport (`bottle`) are
modelled at their interface boundary, as documented on each definition.
-/

namespace Cprofilev

abbrev Str : Type := List Char

/-- The single-quote character (used in the anchor markup). -/
def squote : Char := Char.ofNat 39

/-- The double-quote character. -/
def dquote : Char := Char.ofNat 34

/-! Constants from `cprofilev.py`. -/

def SORT_KEY : Str := "sort".data
def FUNC_NAME_KEY : Str := "func_name".data
def FUNC_LOC_KEY : Str := "func_loc".data

def IGNORE_FUNC_NAMES : List Str := [("function".data), ([] : Str)]
def DEFAULT_SORT_ARG : Str := "cumulative".data
def SORT_ARGS : List (Str × Str) :=
  [(("ncalls".data), ("calls".data)),
   (("tottime".data), ("time".data)),
   (("cumtime".data), ("cumulative".data)),
   (("filename".data), ("module".data)),
   (("lineno".data), ("nfl".data))]
def FUNCTION_SIG_HEADER : Str := "filename:lineno(function)".data

/-! Dictionary operations.  Python dicts preserve insertion order;
`query[key] = val` updates the existing entry in place or appends a
fresh one at the end.  We model a dict as an association list. -/

/-- Python `d[k] = v` on an (insertion-ordered) dict. -/
def dictSet : List (Str × Option Str) → Str → Option Str → List (Str × Option Str)
  | [], k, v => [(k, v)]
  | p :: ps, k, v => if p.1 = k then (k, v) :: ps else p :: dictSet ps k v

/-- First-match association-list lookup (Python `d[k]` / `d.get(k)`). -/
def lookupS {α : Type} : Str → List (Str × α) → Option α
  | _, [] => none
  | k, p :: ps => if p.1 = k then some p.2 else lookupS k ps

/-- The loop of `get_updated_href`: serialize each key with a non-`None`
value as `key=value&`, in dict order. -/
def serializeQuery : List (Str × Option Str) → Str
  | [] => []
  | (k, some v) :: ps => k ++ '=' :: (v ++ '&' :: serializeQuery ps)
  | (_, none) :: ps => serializeQuery ps

/-- View a string-valued query dict as an optional-valued one. -/
def toOpt (q : List (Str × Str)) : List (Str × Option Str) :=
  q.map (fun p => (p.1, some p.2))

/-- Overlay the key/value pairs of `kv` onto the dict `m`, in order
(the `for key, val in keyvals.items(): query[key] = val` loop). -/
def applyOverlay (m : List (Str × Option Str)) (kv : List (Str × Option Str)) :
    List (Str × Option Str) :=
  kv.foldl (fun acc p => dictSet acc p.1 p.2) m

/-- `Stats.get_updated_href`: take the current request's query
parameters, overlay `keyvals`, serialize all keys whose value is not
`None` as `key=value&` after a leading `?`, and drop the final
character (the trailing `&`, or the `?` itself when nothing was
serialized). -/
def get_updated_href (query : List (Str × Str)) (keyvals : List (Str × Option Str)) : Str :=
  ('?' :: serializeQuery (applyOverlay (toOpt query) keyvals)).dropLast

/-! HTML escaping, as performed by bottle's template engine on every
plain (non-`!`) `\x7b\x7b slot \x7d\x7d` substitution.  bottle's
`html_escape` replaces the five characters below by entities; the
chain of `str.replace` calls it uses is equivalent to this
character-wise map because no replacement output contains a character
that a later replacement rewrites. -/

def escChar (c : Char) : Str :=
  if c = '&' then "&amp;".data
  else if c = '<' then "&lt;".data
  else if c = '>' then "&gt;".data
  else if c = dquote then "&quot;".data
  else if c = squote then "&#039;".data
  else [c]

def htmlEscape (s : Str) : Str := (s.map escChar).flatten

/-- The rendered template `<a href=@APOS@X@APOS@>Y</a>` with both slots
HTML-escaped (bottle escapes plain slots), where `@APOS@` stands for a
single quote.  This is the shape of every link the formatter builds. -/
def anchorA (url text : Str) : Str :=
  "<a href=".data ++ squote :: (htmlEscape url ++ squote :: '>' ::
    (htmlEscape text ++ "</a>".data))

/-! The regular expressions of the `Stats` class, specialised to the
single report lines `read` feeds to `process_line` (elements of
`splitlines(True)`: no interior newline, at most one trailing one). -/

/-- Strip the optional trailing newline (`$` in `re.search` matches at
the end of the string or just before a trailing newline). -/
def statsCore (line : Str) : Str :=
  if line.getLast? = some '\n' then line.dropLast else line

/-- Split a string at its last `(`:  `splitAtLastOpen s = some (a, b)`
iff `s = a ++ '(' :: b` with `'(' ∉ b`.  This is how the greedy
`(.*)\((.*)\)$` match distributes its groups. -/
def splitAtLastOpen : Str → Option (Str × Str)
  | [] => none
  | c :: cs =>
    match splitAtLastOpen cs with
    | some pf => some (c :: pf.1, pf.2)
    | none => if c = '(' then some ([], cs) else none

/-- `re.search(STATS_LINE_REGEX, line)` for a single report line, with
`STATS_LINE_REGEX = (.*)\((.*)\)$`: the core (line minus trailing
newline) must end in `)`, group 1 is everything before the last `(` of
the rest, group 2 everything after it. -/
def statsLineMatch (line : Str) : Option (Str × Str) :=
  let core := statsCore line
  if core.getLast? = some ')' then splitAtLastOpen core.dropLast else none

/-- Python `line.find(pat)`: index of the first occurrence (as
`some i`), `none` when absent (Python returns `-1`). -/
def findSub (pat : Str) : Str → Option Nat
  | [] => if pat.isPrefixOf ([] : Str) then some 0 else none
  | c :: cs =>
    if pat.isPrefixOf (c :: cs) then some 0
    else (findSub pat cs).map (· + 1)

/-- Substring containment, `pat in s` / a literal `re.search`. -/
def containsSub (pat s : Str) : Bool := (findSub pat s).isSome

/-- `re.search(HEADER_LINE_REGEX, line)` with
`HEADER_LINE_REGEX = ncalls|tottime|cumtime`: the line contains one of
the three tokens. -/
def headerMatchB (line : Str) : Bool :=
  containsSub ("ncalls".data) line || containsSub ("tottime".data) line ||
    containsSub ("cumtime".data) line

/-- Python `s.replace(p0 :: pt, rep)`: replace every (non-overlapping,
leftmost-first) occurrence.  The pattern is passed with its head
separate so that it is syntactically non-empty (the source only ever
replaces the non-empty sort-key tokens). -/
def replaceSub (p0 : Char) (pt rep : Str) : Str → Str
  | [] => []
  | c :: cs =>
    if (p0 :: pt).isPrefixOf (c :: cs) then
      rep ++ replaceSub p0 pt rep (cs.drop pt.length)
    else c :: replaceSub p0 pt rep cs
termination_by s => s.length
decreasing_by
  · simp only [List.length_cons]
    have h := List.length_drop pt.length cs
    omega
  · simp only [List.length_cons]
    omega

/-- `s.replace(pat, rep)` for a non-empty pattern (identity on the
empty pattern, which the source never uses). -/
def replaceAll (s pat rep : Str) : Str :=
  match pat with
  | [] => s
  | p0 :: pt => replaceSub p0 pt rep s

/-- The sort link substituted for a column-header token: target
overlays the sort key, visible text is the token. -/
def sortKeyLink (query : List (Str × Str)) (val key : Str) : Str :=
  anchorA (get_updated_href query [(SORT_KEY, some val)]) key

/-- The header-line loop of `process_line`: replace each sort-key token
by its link, in `SORT_ARGS` order. -/
def headerLineFormat (query : List (Str × Str)) (line : Str) : Str :=
  SORT_ARGS.foldl (fun l kv => replaceAll l kv.1 (sortKeyLink query kv.2 kv.1)) line

/-- `Stats.process_line(line, info)`.  `info` carries the remembered
`func_col_pos` offset of the function-signature column (a Python dict
holding at most that one key).  Returns the rewritten line and the
updated `info`.  On a header line the offset is located on the
original line, the sort tokens are replaced, and the stats pattern is
then matched against the *replaced* line, exactly as in the source. -/
def process_line (query : List (Str × Str)) (line : Str) (info : Option Nat) :
    Str × Option Nat :=
  let hdr := headerMatchB line
  let info2 :=
    if hdr then
      match info with
      | some p => some p
      | none => findSub FUNCTION_SIG_HEADER line
    else info
  let line2 := if hdr then headerLineFormat query line else line
  match statsLineMatch line2 with
  | none => (line2, info2)
  | some pf =>
    if pf.2 ∈ IGNORE_FUNC_NAMES then (line2, info2)
    else
      match info2 with
      | some pos =>
        let floc := pf.1.drop pos
        let pre2 := pf.1.take pos
        let full := anchorA
          (get_updated_href query [(FUNC_LOC_KEY, some floc), (FUNC_NAME_KEY, some pf.2)])
          floc
        let nlink := anchorA
          (get_updated_href query [(FUNC_LOC_KEY, none), (FUNC_NAME_KEY, some pf.2)])
          pf.2
        (htmlEscape pre2 ++ full ++ '(' :: (nlink ++ [')', '\n']), some pos)
      | none =>
        let nlink := anchorA
          (get_updated_href query [(FUNC_LOC_KEY, none), (FUNC_NAME_KEY, some pf.2)])
          pf.2
        (htmlEscape pf.1 ++ '(' :: (nlink ++ [')', '\n']), info2)

/-- Python `output.splitlines(True)`, restricted to `\n` terminators
(the only line terminator the aggregation library emits). -/
def splitlinesTrue : Str → List Str
  | [] => []
  | c :: cs =>
    match splitlinesTrue cs with
    | [] => [[c]]
    | l :: ls => if c = '\n' then [c] :: l :: ls else (c :: l) :: ls

/-- The loop of `Stats.read`: process every line, threading the shared
`info` dict through in order. -/
def processLines (query : List (Str × Str)) :
    Option Nat → List Str → List Str × Option Nat
  | info, [] => ([], info)
  | info, l :: ls =>
    let r := process_line query l info
    let rest := processLines query r.2 ls
    (r.1 :: rest.1, rest.2)

/-- The pure part of `Stats.read`: split the drained stream contents
into lines, format each, and join. -/
def formatOutput (query : List (Str × Str)) (s : Str) : Str :=
  ((processLines query none (splitlinesTrue s)).1).flatten

/-! The stateful `Stats` session.  A `StatsObj` is one `Stats` object:
the `pstats.Stats` it wraps (its data snapshot and current sort key)
together with the `StringIO` stream the reports are printed to.  The
profiling data accumulated by the background thread is modelled as a
function `source : Nat → α` from (abstract) time to data; the
aggregation library's printers are parameters `α → Str → List Str →
Str` of snapshot, sort key and restrictions (spec section 6: the
library is deterministic given the same data-source snapshot and
filters). -/

structure StatsObj (α : Type) where
  snapshot : α
  sortKey : Str
  stream : Str
  deriving DecidableEq

/-- `Stats.__init__` at time `t`: `pstats.Stats(profile, stream)` reads
the data source once, at construction (`load_stats` calls
`profile.create_stats()` and keeps the resulting snapshot; for a file
argument it loads the file).  Modelled from the spec: the aggregation
library's construct-from-data-source operation (section 6).  The
stream starts empty and no sort key is applied yet. -/
def statsInit {α : Type} (source : Nat → α) (t : Nat) : StatsObj α :=
  { snapshot := source t, sortKey := [], stream := [] }

/-- The sort keys this program can ask the aggregation library for:
the enumerated sort-key set (spec section 3), i.e. the values of
`SORT_ARGS` (the default `cumulative` is among them). -/
def VALID_SORT_KEYS : List Str := SORT_ARGS.map Prod.snd

/-- Modelled from the spec: the aggregation library's `sort-by(key)`
(section 6); an invalid key fails (section 4.2: "invalid keys fail
with a ConfigurationError"; `pstats.sort_stats` raises `KeyError` on
an unrecognized token). -/
def sort_stats {α : Type} (st : StatsObj α) (key : Str) : Except Str (StatsObj α) :=
  if key ∈ VALID_SORT_KEYS then .ok { st with sortKey := key } else .error key

namespace Stats

/-- `Stats.sort(sort='')`: an empty key falls back to
`DEFAULT_SORT_ARG`, then the aggregation library sorts. -/
def sort {α : Type} (st : StatsObj α) (sortArg : Str) : Except Str (StatsObj α) :=
  sort_stats st (if sortArg = [] then DEFAULT_SORT_ARG else sortArg)

/-- `Stats.show`: `print_stats(*restrictions)` appends the printed
main report (a function of the snapshot, sort key and restrictions)
to the stream. -/
def show' {α : Type} (printer : α → Str → List Str → Str) (st : StatsObj α)
    (restrictions : List Str) : StatsObj α :=
  { st with stream := st.stream ++ printer st.snapshot st.sortKey restrictions }

/-- `Stats.show_callers`: `print_callers(*restriction)` appends the
callers report to the stream. -/
def show_callers {α : Type} (printer : α → Str → List Str → Str) (st : StatsObj α)
    (restrictions : List Str) : StatsObj α :=
  { st with stream := st.stream ++ printer st.snapshot st.sortKey restrictions }

/-- `Stats.show_callees`: `print_callees(*restriction)` appends the
callees report to the stream. -/
def show_callees {α : Type} (printer : α → Str → List Str → Str) (st : StatsObj α)
    (restrictions : List Str) : StatsObj α :=
  { st with stream := st.stream ++ printer st.snapshot st.sortKey restrictions }

/-- `Stats.read_stream`: return the whole stream contents and empty
the stream (`getvalue`, `seek(0)`, `truncate()`). -/
def read_stream {α : Type} (st : StatsObj α) : Str × StatsObj α :=
  (st.stream, { st with stream := [] })

/-- `Stats.read`: drain the stream and format every line of it. -/
def read {α : Type} (query : List (Str × Str)) (st : StatsObj α) : Str × StatsObj α :=
  let r := read_stream st
  (formatOutput query r.1, r.2)

end Stats

/-! The report controller (`CProfileV.route_handler`). -/

/-- Python `re.escape` (3.7+): prefix every special character with a
backslash, leave the rest alone. -/
def SPECIAL_CHARS : Str :=
  "()[]".data ++ Char.ofNat 123 :: Char.ofNat 125 ::
    ("?*+-|^$\\.&~# \t\n\r".data ++ [Char.ofNat 11, Char.ofNat 12])

def reEscape (s : Str) : Str :=
  (s.map (fun c => if c ∈ SPECIAL_CHARS then ['\\', c] else [c])).flatten

/-- `bottle.request.query.get(k) or @APOS@@APOS@` (where `@APOS@` is a
quote): the parameter's value, or the empty string when absent. -/
def queryGet (query : List (Str × Str)) (k : Str) : Str :=
  match lookupS k query with
  | some v => v
  | none => []

/-- The restriction expressions `route_handler` builds: a selected
function name contributes `\(` ++ escaped name ++ `\)`, a selected
location contributes `^` ++ escaped location, in that order; an empty
selector contributes nothing. -/
def restrictionsOf (func_name func_loc : Str) : List Str :=
  (if func_name ≠ [] then ['\\' :: '(' :: (reEscape func_name ++ ['\\', ')'])] else []) ++
    (if func_loc ≠ [] then ['^' :: reEscape func_loc] else [])

/-! Semantics of the restriction patterns.  The handler only ever
builds patterns made of a possibly-leading `^` anchor followed by
escaped or non-special literal characters; `regexSearch` is
`re.search` restricted to that fragment. -/

/-- The characters that are special in a regular expression (outside a
character class). -/
def REGEX_META : Str :=
  ".^$*+?".data ++ Char.ofNat 123 :: Char.ofNat 125 :: "[]\\|()".data

/-- Interpret a pattern consisting only of literals (escaped or plain
non-special characters) as the literal string it matches. -/
def parseEscaped : Str → Option Str
  | [] => some ([] : Str)
  | '\\' :: c :: r => (parseEscaped r).map (c :: ·)
  | c :: r => if c ∈ REGEX_META then none else (parseEscaped r).map (c :: ·)

/-- `re.search(pat, s)` for the fragment the handler generates: a
leading `^` anchors the remaining literal at the start of the string,
otherwise the literal may occur anywhere. -/
def regexSearch (pat s : Str) : Bool :=
  match pat with
  | '^' :: rest =>
    match parseEscaped rest with
    | some lit => lit.isPrefixOf s
    | none => false
  | _ =>
    match parseEscaped pat with
    | some lit => containsSub lit s
    | none => false

/-- Modelled from the spec: the aggregation library applies the
restriction expressions as successive narrowing passes over the
function entries (section 3, RestrictionSet); a pattern restriction
keeps the entries whose standard signature it matches
(`pstats.eval_print_amount` uses `re.search` on
`filename:lineno(function)` strings). -/
def applyRestrictions (rs : List Str) (sigs : List Str) : List Str :=
  rs.foldl (fun acc r => acc.filter (fun s => regexSearch r s)) sigs

/-- The rendered result of one view request (the template data of
`route_handler`, minus the constant title). -/
structure Page where
  stats : Str
  callers : Str
  callees : Str
  restrictions : List Str
  deriving DecidableEq

/-- `CProfileV.route_handler`: construct a fresh `Stats` session over
the live profile, extract the three optional query parameters, build
the restrictions, sort (an invalid sort key raises, uncaught), render
callers/callees only when a function name is selected, then sort again
and render the main report.  `printMain`, `printCallers` and
`printCallees` are the aggregation library's three printers. -/
def route_handler {α : Type} (printMain printCallers printCallees : α → Str → List Str → Str)
    (source : Nat → α) (t : Nat) (query : List (Str × Str)) : Except Str Page :=
  let st0 := statsInit source t
  let func_name := queryGet query FUNC_NAME_KEY
  let func_loc := queryGet query FUNC_LOC_KEY
  let sortParam := queryGet query SORT_KEY
  let restrictions := restrictionsOf func_name func_loc
  match Stats.sort st0 sortParam with
  | .error e => .error e
  | .ok st1 =>
    let cr :=
      if func_name ≠ [] then
        Stats.read query (Stats.show_callers printCallers st1 restrictions)
      else (([] : Str), st1)
    let ce :=
      if func_name ≠ [] then
        Stats.read query (Stats.show_callees printCallees cr.2 restrictions)
      else (([] : Str), cr.2)
    match Stats.sort ce.2 sortParam with
    | .error e => .error e
    | .ok st6 =>
      let mr := Stats.read query (Stats.show' printMain st6 restrictions)
      .ok { stats := mr.1, callers := cr.1, callees := ce.1, restrictions := restrictions }

/-! Definitions written from the spec's words, for comparison with the
code's `get_updated_href` (claims about the link-target format). -/

/-- Drop the `None`-valued entries of an optional-valued dict, keeping
order. -/
def strip (m : List (Str × Option Str)) : List (Str × Str) :=
  m.filterMap (fun p => p.2.map (fun v => (p.1, v)))

/-- Join strings with `&` separators. -/
def ampJoin : List Str → Str
  | [] => []
  | [e] => e
  | e :: e2 :: es => e ++ '&' :: ampJoin (e2 :: es)

/-- A query string over the given parameters: `key=value` pairs joined
by `&`, after a `?` (empty when there are no parameters). -/
def hrefOfParams (ps : List (Str × Str)) : Str :=
  if ps = [] then [] else '?' :: ampJoin (ps.map (fun p => p.1 ++ '=' :: p.2))

/-- Follows the spec's words for the link-target rule exactly as
claimed: overlay the changed keys onto the current parameters, drop
every parameter whose resulting value is *empty or absent*, and join
the remainder as `key=value` pairs separated by `&`. -/
def get_updated_href_specC2 (query : List (Str × Str)) (keyvals : List (Str × Option Str)) : Str :=
  hrefOfParams ((strip (applyOverlay (toOpt query) keyvals)).filter (fun p => !(p.2 = [])))

/-- The amended link-target rule: overlay the changed keys onto the
current parameters, drop every parameter whose resulting value is
*absent* (empty values are kept and serialized as `key=`), and join
the remainder as `key=value` pairs separated by `&`. -/
def get_updated_href_amended (query : List (Str × Str)) (keyvals : List (Str × Option Str)) : Str :=
  hrefOfParams (strip (applyOverlay (toOpt query) keyvals))

/-! Observations on the produced HTML: number of hyperlinks and
visible (rendered) text. -/

/-- Number of anchor elements in an HTML fragment: occurrences of the
tag opener `<a`. -/
def countLinks : Str → Nat
  | [] => 0
  | c :: r => (if c = '<' ∧ r.head? = some 'a' then 1 else 0) + countLinks r

/-- Remove the markup tags of an HTML fragment (the flag says whether
we are inside a `<...>` tag). -/
def stripTagsAux : Bool → Str → Str
  | _, [] => []
  | true, c :: r => if c = '>' then stripTagsAux false r else stripTagsAux true r
  | false, c :: r => if c = '<' then stripTagsAux true r else c :: stripTagsAux false r

def stripTags (s : Str) : Str := stripTagsAux false s

/-- Undo the five entity escapes of `htmlEscape` (how a browser
renders the escaped text). -/
def htmlUnescape : Str → Str
  | '&' :: 'a' :: 'm' :: 'p' :: ';' :: r => '&' :: htmlUnescape r
  | '&' :: 'l' :: 't' :: ';' :: r => '<' :: htmlUnescape r
  | '&' :: 'g' :: 't' :: ';' :: r => '>' :: htmlUnescape r
  | '&' :: 'q' :: 'u' :: 'o' :: 't' :: ';' :: r => dquote :: htmlUnescape r
  | '&' :: '#' :: '0' :: '3' :: '9' :: ';' :: r => squote :: htmlUnescape r
  | c :: r => c :: htmlUnescape r
  | [] => []

/-- The text a browser displays for an HTML fragment: strip the tags,
undo the escaping. -/
def visibleText (s : Str) : Str := htmlUnescape (stripTags s)

/-! Helper functions for the association-list proofs. -/

def keysOf {β : Type} (m : List (Str × β)) : List Str := m.map Prod.fst

/-- Pointwise effect of an overlay on an existing entry: replace its
value if the overlay mentions its key. -/
def updBy (kv : List (Str × Option Str)) (p : Str × Option Str) : Str × Option Str :=
  match lookupS p.1 kv with
  | some v => (p.1, v)
  | none => p

/-! Concrete inputs used to exhibit the session-snapshot behaviour:
a data source that changes between time 0 and time 1, and a printer
that renders visibly different reports for the two states. -/

def c4source : Nat → Nat := fun t => t

def c4printer : Nat → Str → List Str → Str :=
  fun d _ _ => if d = 0 then "old".data else "new".data

/-! Serialization lemmas for the link-target claims. -/

theorem serializeQuery_eq_strip (m : List (Str × Option Str)) :
    serializeQuery m =
      ((strip m).map (fun p => p.1 ++ '=' :: (p.2 ++ ['&']))).flatten := by
  induction m with
  | nil => rfl
  | cons p ps ih =>
    obtain ⟨k, v⟩ := p
    cases v with
    | none => simpa [serializeQuery, strip] using ih
    | some w => simp [serializeQuery, strip, ih]

theorem flatten_serialized_ne_nil (p : Str × Str) (ps : List (Str × Str)) :
    ((p :: ps).map (fun q => q.1 ++ '=' :: (q.2 ++ ['&']))).flatten ≠ [] := by
  simp only [List.map_cons, List.flatten_cons, ne_eq, List.append_eq_nil]
  intro h
  have := h.1.2
  simp at this

theorem serialized_dropLast (ps : List (Str × Str)) (hne : ps ≠ []) :
    ((ps.map (fun p => p.1 ++ '=' :: (p.2 ++ ['&']))).flatten).dropLast =
      ampJoin (ps.map (fun p => p.1 ++ '=' :: p.2)) := by
  induction ps with
  | nil => exact absurd rfl hne
  | cons p ps ih =>
    cases ps with
    | nil =>
      simp only [List.map_cons, List.map_nil, List.flatten_cons, List.flatten_nil,
        List.append_nil, ampJoin]
      have : p.1 ++ '=' :: (p.2 ++ ['&']) = (p.1 ++ '=' :: p.2) ++ ['&'] := by simp
      rw [this, List.dropLast_concat]
    | cons p2 ps2 =>
      have hflat := flatten_serialized_ne_nil p2 ps2
      simp only [List.map_cons, List.flatten_cons] at hflat ⊢
      rw [List.dropLast_append_of_ne_nil _ hflat]
      have ih2 := ih (by simp)
      simp only [List.map_cons, List.flatten_cons] at ih2
      rw [ih2, ampJoin]
      simp

theorem href_eq_hrefOfParams (m : List (Str × Option Str)) :
    ('?' :: serializeQuery m).dropLast = hrefOfParams (strip m) := by
  rw [serializeQuery_eq_strip]
  cases hs : strip m with
  | nil => simp [hrefOfParams]
  | cons p ps =>
    have hflat := flatten_serialized_ne_nil p ps
    have : ('?' :: ((p :: ps).map (fun q => q.1 ++ '=' :: (q.2 ++ ['&']))).flatten) =
        ['?'] ++ ((p :: ps).map (fun q => q.1 ++ '=' :: (q.2 ++ ['&']))).flatten := rfl
    rw [this, List.dropLast_append_of_ne_nil _ hflat,
      serialized_dropLast (p :: ps) (by simp), hrefOfParams]
    simp

/-- Claim C2 (counterexample): with a current query whose `sort`
parameter has the empty string as value, the code serializes it as
`sort=` in the link target, while the claimed rule (drop empty values)
would omit it. -/
theorem c2_counterexample :
    get_updated_href [((SORT_KEY), ([] : Str))] [((FUNC_NAME_KEY), some ("foo".data))] =
        "?sort=&func_name=foo".data ∧
      get_updated_href_specC2 [((SORT_KEY), ([] : Str))] [((FUNC_NAME_KEY), some ("foo".data))] =
        "?func_name=foo".data ∧
      ("?sort=&func_name=foo".data : Str) ≠ "?func_name=foo".data := by
  refine ⟨by decide, by decide, by decide⟩

/-- Claim C2 (amended): the link target is obtained by overlaying the
changed keys onto the current parameters, dropping every parameter
whose resulting value is *absent* (`None`), and joining the remainder
as `key=value` pairs separated by `&` after a leading `?`; a parameter
whose resulting value is the empty string is kept and serialized as
`key=`. -/
theorem get_updated_href_is_overlay_drop_absent_join
    (query : List (Str × Str)) (keyvals : List (Str × Option Str)) :
    get_updated_href query keyvals = get_updated_href_amended query keyvals := by
  rw [get_updated_href, get_updated_href_amended, href_eq_hrefOfParams]

/-! Claim C3: unrecognized sort tokens. -/

/-- Claim C3 (counterexample): a request with `sort=bogus` does not
return a default-sorted report; the aggregation library's failure on
the unrecognized key propagates and the request fails. -/
theorem c3_counterexample :
    route_handler (fun _ _ _ => ([] : Str)) (fun _ _ _ => ([] : Str)) (fun _ _ _ => ([] : Str))
        (fun _ => (0 : Nat)) 0 [((SORT_KEY), ("bogus".data))] =
      .error ("bogus".data) := rfl

/-- Claim C3 (amended): only an empty or missing `sort` parameter
falls back to the default sort key; a non-empty unrecognized sort
token is handed to the aggregation library unchanged, its failure is
not caught, and the request fails with that token's error. -/
theorem route_handler_invalid_sort {α : Type}
    (printMain printCallers printCallees : α → Str → List Str → Str)
    (source : Nat → α) (t : Nat) (query : List (Str × Str)) (k : Str)
    (hk : queryGet query SORT_KEY = k) (hne : k ≠ []) (hinv : k ∉ VALID_SORT_KEYS) :
    route_handler printMain printCallers printCallees source t query = .error k := by
  subst hk
  simp [route_handler, Stats.sort, sort_stats, hne, hinv]

/-- Claim C3 (witness for the amended theorem): concrete instance of
an unrecognized non-empty sort token. -/
theorem route_handler_invalid_sort_witness :
    queryGet [((SORT_KEY), ("nosuch".data)), ((FUNC_NAME_KEY), ("f".data))] SORT_KEY =
        "nosuch".data ∧
      ("nosuch".data : Str) ≠ [] ∧
      "nosuch".data ∉ VALID_SORT_KEYS ∧
      route_handler (fun _ _ _ => ([] : Str)) (fun _ _ _ => ([] : Str))
          (fun _ _ _ => ([] : Str)) (fun _ => (0 : Nat)) 1
          [((SORT_KEY), ("nosuch".data)), ((FUNC_NAME_KEY), ("f".data))] =
        .error ("nosuch".data) :=
  ⟨by decide, by decide, by decide,
    route_handler_invalid_sort _ _ _ _ 1 _ _ (by decide) (by decide) (by decide)⟩

/-! Claim C4: when the data source is read. -/

/-- Claim C4 (counterexample): a session constructed at time 0, whose
underlying data source has advanced by the time of its second render,
still renders the construction-time data (`old`), not the data a
call-time read would produce (`new`): renders do not re-read the live
source at call time. -/
theorem c4_counterexample :
    (Stats.read_stream (Stats.show' c4printer
        (Stats.read_stream (Stats.show' c4printer (statsInit c4source 0) [])).2 [])).1 =
        "old".data ∧
      c4printer (c4source 1) ([] : Str) [] = "new".data ∧
      ("old".data : Str) ≠ "new".data := by
  refine ⟨rfl, rfl, by decide⟩

/-- Claim C4 (amended): the data source is read once, when the session
is constructed (each request constructs a fresh session, so each
request observes the then-current data); every render within one
session derives from that same construction-time snapshot, so two
renders in the same session always observe the same data. -/
theorem session_renders_construction_snapshot {α : Type}
    (p1 p2 : α → Str → List Str → Str) (source : Nat → α) (t : Nat) (r1 r2 : List Str) :
    (statsInit source t).snapshot = source t ∧
      (Stats.read_stream (Stats.show' p1 (statsInit source t) r1)).1 =
        p1 (source t) ([] : Str) r1 ∧
      (Stats.read_stream (Stats.show' p2
          (Stats.read_stream (Stats.show' p1 (statsInit source t) r1)).2 r2)).1 =
        p2 (source t) ([] : Str) r2 := by
  refine ⟨rfl, by simp [statsInit, Stats.show', Stats.read_stream],
    by simp [statsInit, Stats.show', Stats.read_stream]⟩

/-! Claim C6: noise lines are left unchanged. -/

/-- Claim C6: a data line (one not matching the header pattern) whose
parenthesized function-name portion is empty or the reserved sentinel
`function` is returned by `process_line` completely unchanged — no
hyperlink is inserted. -/
theorem ignored_line_unchanged (q : List (Str × Str)) (line p f : Str) (info : Option Nat)
    (hh : headerMatchB line = false) (hm : statsLineMatch line = some (p, f))
    (hig : f ∈ IGNORE_FUNC_NAMES) :
    process_line q line info = (line, info) := by
  simp [process_line, hh, hm, hig]

/-- Claim C6 (witness): the aggregate row sentinel `function` at a
concrete line. -/
theorem ignored_line_unchanged_witness :
    headerMatchB ("x(function)\n".data) = false ∧
      statsLineMatch ("x(function)\n".data) = some (("x".data), ("function".data)) ∧
      ("function".data : Str) ∈ IGNORE_FUNC_NAMES ∧
      process_line [] ("x(function)\n".data) none = (("x(function)\n".data), none) :=
  ⟨by decide, by decide, by decide,
    ignored_line_unchanged [] ("x(function)\n".data) ("x".data) ("function".data) none
      (by decide) (by decide) (by decide)⟩

/-! Claim C9: empty or unspecified sort key. -/

/-- Claim C9: sorting with an empty key, or with the key extracted
from a request that carries no `sort` parameter, sorts the statistics
by the default key `cumulative`. -/
theorem sort_defaults_to_cumulative {α : Type} (st : StatsObj α)
    (query : List (Str × Str)) (hq : lookupS SORT_KEY query = none) :
    Stats.sort st ([] : Str) = .ok { st with sortKey := DEFAULT_SORT_ARG } ∧
      Stats.sort st (queryGet query SORT_KEY) = .ok { st with sortKey := DEFAULT_SORT_ARG } ∧
      DEFAULT_SORT_ARG = "cumulative".data := by
  have h1 : Stats.sort st ([] : Str) = .ok { st with sortKey := DEFAULT_SORT_ARG } := by
    rw [Stats.sort, if_pos rfl, sort_stats, if_pos (by decide)]
  refine ⟨h1, ?_, by decide⟩
  rw [queryGet, hq]
  exact h1

/-- Claim C9 (witness): concrete session and a request with no `sort`
parameter. -/
theorem sort_defaults_to_cumulative_witness :
    lookupS SORT_KEY ([((FUNC_NAME_KEY), ("f".data))] : List (Str × Str)) = none ∧
      Stats.sort ({ snapshot := 0, sortKey := [], stream := [] } : StatsObj Nat) ([] : Str) =
        .ok { snapshot := 0, sortKey := DEFAULT_SORT_ARG, stream := [] } :=
  ⟨by decide,
    (sort_defaults_to_cumulative ({ snapshot := 0, sortKey := [], stream := [] } : StatsObj Nat)
      [((FUNC_NAME_KEY), ("f".data))] (by decide)).1⟩

/-! Claim C10: reading the stream consumes it. -/

/-- Claim C10: `read_stream` empties the internal stream, so a read
returns exactly the text printed by the show calls performed since the
previous read and never bytes from an earlier render in the same
session. -/
theorem read_stream_consumes {α : Type} (p1 p2 : α → Str → List Str → Str)
    (st : StatsObj α) (r1 r2 : List Str) :
    (Stats.read_stream st).2.stream = [] ∧
      (Stats.read_stream (Stats.show' p2
          (Stats.show_callers p1 (Stats.read_stream st).2 r1) r2)).1 =
        p1 st.snapshot st.sortKey r1 ++ p2 st.snapshot st.sortKey r2 := by
  refine ⟨rfl, by simp [Stats.read_stream, Stats.show', Stats.show_callers]⟩

/-! Lemmas about the produced HTML fragments. -/

theorem escChar_no_tag (c : Char) : '<' ∉ escChar c ∧ '>' ∉ escChar c := by
  unfold escChar
  split_ifs with h1 h2 h3 h4 h5
  · exact ⟨by decide, by decide⟩
  · exact ⟨by decide, by decide⟩
  · exact ⟨by decide, by decide⟩
  · exact ⟨by decide, by decide⟩
  · exact ⟨by decide, by decide⟩
  · constructor
    · intro hm
      rw [List.mem_singleton] at hm
      exact h2 hm.symm
    · intro hm
      rw [List.mem_singleton] at hm
      exact h3 hm.symm

theorem not_lt_mem_htmlEscape (s : Str) : '<' ∉ htmlEscape s := by
  induction s with
  | nil => simp [htmlEscape]
  | cons c s ih =>
    simp only [htmlEscape, List.map_cons, List.flatten_cons] at *
    intro hm
    rcases List.mem_append.mp hm with h | h
    · exact (escChar_no_tag c).1 h
    · exact ih h

theorem not_gt_mem_htmlEscape (s : Str) : '>' ∉ htmlEscape s := by
  induction s with
  | nil => simp [htmlEscape]
  | cons c s ih =>
    simp only [htmlEscape, List.map_cons, List.flatten_cons] at *
    intro hm
    rcases List.mem_append.mp hm with h | h
    · exact (escChar_no_tag c).2 h
    · exact ih h

theorem htmlEscape_append (a b : Str) :
    htmlEscape (a ++ b) = htmlEscape a ++ htmlEscape b := by
  simp [htmlEscape]

theorem countLinks_cons (c : Char) (r : Str) :
    countLinks (c :: r) = (if c = '<' ∧ r.head? = some 'a' then 1 else 0) + countLinks r := rfl

theorem countLinks_append_no_lt (a b : Str) (ha : '<' ∉ a) :
    countLinks (a ++ b) = countLinks b := by
  induction a with
  | nil => rfl
  | cons c a ih =>
    have hc : c ≠ '<' := fun h => ha (h ▸ List.mem_cons_self c a)
    have ha' : '<' ∉ a := fun h => ha (List.mem_cons_of_mem _ h)
    rw [List.cons_append, countLinks_cons, if_neg (fun hand => hc hand.1), ih ha']
    omega

/-- The anchor markup, reassociated into the shape the scanning lemmas
consume. -/
theorem anchorA_shape (u t b : Str) :
    anchorA u t ++ b =
      '<' :: (('a' :: ' ' :: 'h' :: 'r' :: 'e' :: 'f' :: '=' :: squote ::
        (htmlEscape u ++ [squote])) ++ '>' ::
          (htmlEscape t ++ ('<' :: '/' :: 'a' :: '>' :: b))) := by
  simp [anchorA, List.append_assoc]

theorem countLinks_anchorA (u t b : Str) :
    countLinks (anchorA u t ++ b) = countLinks b + 1 := by
  rw [anchorA_shape]
  rw [countLinks_cons]
  rw [if_pos (by exact ⟨rfl, rfl⟩)]
  rw [List.cons_append]
  rw [countLinks_cons, if_neg (by simp)]
  have h1 : ('h' :: 'r' :: 'e' :: 'f' :: '=' :: squote :: (htmlEscape u ++ [squote])) ++
      '>' :: (htmlEscape t ++ ('<' :: '/' :: 'a' :: '>' :: b)) =
      ('h' :: 'r' :: 'e' :: 'f' :: '=' :: squote :: []) ++ (htmlEscape u ++ ([squote, '>'] ++
        (htmlEscape t ++ ('<' :: '/' :: 'a' :: '>' :: b)))) := by
    simp [List.append_assoc]
  rw [List.cons_append, countLinks_cons, if_neg (by simp), h1]
  rw [countLinks_append_no_lt _ _ (by decide)]
  rw [countLinks_append_no_lt _ _ (not_lt_mem_htmlEscape u)]
  rw [countLinks_append_no_lt _ _ (by decide)]
  rw [countLinks_append_no_lt _ _ (not_lt_mem_htmlEscape t)]
  rw [countLinks_cons, if_neg (by simp)]
  rw [countLinks_cons, if_neg (by simp)]
  rw [countLinks_cons, if_neg (by simp)]
  rw [countLinks_cons, if_neg (by simp)]
  omega

theorem stripTagsAux_false_cons (c : Char) (r : Str) (hc : c ≠ '<') :
    stripTagsAux false (c :: r) = c :: stripTagsAux false r := by
  simp [stripTagsAux, hc]

theorem stripTagsAux_false_append (a b : Str) (ha : '<' ∉ a) :
    stripTagsAux false (a ++ b) = a ++ stripTagsAux false b := by
  induction a with
  | nil => rfl
  | cons c a ih =>
    have hc : c ≠ '<' := fun h => ha (h ▸ List.mem_cons_self c a)
    have ha' : '<' ∉ a := fun h => ha (List.mem_cons_of_mem _ h)
    rw [List.cons_append, stripTagsAux_false_cons _ _ hc, ih ha', List.cons_append]

theorem stripTagsAux_true_append (a b : Str) (ha : '>' ∉ a) :
    stripTagsAux true (a ++ '>' :: b) = stripTagsAux false b := by
  induction a with
  | nil => simp [stripTagsAux]
  | cons c a ih =>
    have hc : c ≠ '>' := fun h => ha (h ▸ List.mem_cons_self c a)
    have ha' : '>' ∉ a := fun h => ha (List.mem_cons_of_mem _ h)
    rw [List.cons_append]
    show stripTagsAux true (c :: (a ++ '>' :: b)) = stripTagsAux false b
    rw [show stripTagsAux true (c :: (a ++ '>' :: b)) =
      stripTagsAux true (a ++ '>' :: b) by simp [stripTagsAux, hc]]
    exact ih ha'

theorem stripTags_anchorA (u t b : Str) :
    stripTagsAux false (anchorA u t ++ b) = htmlEscape t ++ stripTagsAux false b := by
  rw [anchorA_shape]
  rw [show stripTagsAux false ('<' :: (('a' :: ' ' :: 'h' :: 'r' :: 'e' :: 'f' :: '=' :: squote ::
      (htmlEscape u ++ [squote])) ++ '>' :: (htmlEscape t ++ ('<' :: '/' :: 'a' :: '>' :: b)))) =
    stripTagsAux true (('a' :: ' ' :: 'h' :: 'r' :: 'e' :: 'f' :: '=' :: squote ::
      (htmlEscape u ++ [squote])) ++ '>' :: (htmlEscape t ++ ('<' :: '/' :: 'a' :: '>' :: b)))
    from by simp [stripTagsAux]]
  rw [stripTagsAux_true_append _ _ ?hgt]
  case hgt =>
    intro hm
    simp only [List.mem_cons, List.mem_append, List.mem_singleton] at hm
    rcases hm with h | h | h | h | h | h | h | h | h | h
    all_goals first
      | (exact absurd h (by decide))
      | (exact not_gt_mem_htmlEscape u h)
  rw [stripTagsAux_false_append _ _ (not_lt_mem_htmlEscape t)]
  rw [show stripTagsAux false ('<' :: '/' :: 'a' :: '>' :: b) =
      stripTagsAux true ('/' :: 'a' :: '>' :: b) from by simp [stripTagsAux]]
  rw [show ('/' :: 'a' :: '>' :: b) = ['/', 'a'] ++ '>' :: b from rfl]
  rw [stripTagsAux_true_append _ _ (by decide)]

set_option maxHeartbeats 1000000 in
theorem htmlUnescape_cons (c : Char) (r : Str) (hc : c ≠ '&') :
    htmlUnescape (c :: r) = c :: htmlUnescape r := by
  rw [htmlUnescape.eq_def]
  split
  · rename_i heq; injection heq with h1 h2; exact absurd h1 hc
  · rename_i heq; injection heq with h1 h2; exact absurd h1 hc
  · rename_i heq; injection heq with h1 h2; exact absurd h1 hc
  · rename_i heq; injection heq with h1 h2; exact absurd h1 hc
  · rename_i heq; injection heq with h1 h2; exact absurd h1 hc
  · rename_i heq; cases heq; rfl
  · rename_i heq; cases heq

theorem htmlUnescape_escape_append (a b : Str) :
    htmlUnescape (htmlEscape a ++ b) = a ++ htmlUnescape b := by
  induction a with
  | nil => simp [htmlEscape]
  | cons c a ih =>
    have hesc : htmlEscape (c :: a) = escChar c ++ htmlEscape a := by
      simp [htmlEscape]
    rw [hesc, List.append_assoc]
    by_cases h1 : c = '&'
    · subst h1
      rw [show escChar '&' = '&' :: 'a' :: 'm' :: 'p' :: ';' :: [] from rfl]
      rw [show ('&' :: 'a' :: 'm' :: 'p' :: ';' :: []) ++ (htmlEscape a ++ b) =
        '&' :: 'a' :: 'm' :: 'p' :: ';' :: (htmlEscape a ++ b) from rfl]
      rw [show htmlUnescape ('&' :: 'a' :: 'm' :: 'p' :: ';' :: (htmlEscape a ++ b)) =
        '&' :: htmlUnescape (htmlEscape a ++ b) from rfl]
      rw [ih, List.cons_append]
    by_cases h2 : c = '<'
    · subst h2
      rw [show escChar '<' = '&' :: 'l' :: 't' :: ';' :: [] from rfl]
      rw [show ('&' :: 'l' :: 't' :: ';' :: []) ++ (htmlEscape a ++ b) =
        '&' :: 'l' :: 't' :: ';' :: (htmlEscape a ++ b) from rfl]
      rw [show htmlUnescape ('&' :: 'l' :: 't' :: ';' :: (htmlEscape a ++ b)) =
        '<' :: htmlUnescape (htmlEscape a ++ b) from rfl]
      rw [ih, List.cons_append]
    by_cases h3 : c = '>'
    · subst h3
      rw [show escChar '>' = '&' :: 'g' :: 't' :: ';' :: [] from rfl]
      rw [show ('&' :: 'g' :: 't' :: ';' :: []) ++ (htmlEscape a ++ b) =
        '&' :: 'g' :: 't' :: ';' :: (htmlEscape a ++ b) from rfl]
      rw [show htmlUnescape ('&' :: 'g' :: 't' :: ';' :: (htmlEscape a ++ b)) =
        '>' :: htmlUnescape (htmlEscape a ++ b) from rfl]
      rw [ih, List.cons_append]
    by_cases h4 : c = dquote
    · subst h4
      rw [show escChar dquote = '&' :: 'q' :: 'u' :: 'o' :: 't' :: ';' :: [] from rfl]
      rw [show ('&' :: 'q' :: 'u' :: 'o' :: 't' :: ';' :: []) ++ (htmlEscape a ++ b) =
        '&' :: 'q' :: 'u' :: 'o' :: 't' :: ';' :: (htmlEscape a ++ b) from rfl]
      rw [show htmlUnescape ('&' :: 'q' :: 'u' :: 'o' :: 't' :: ';' :: (htmlEscape a ++ b)) =
        dquote :: htmlUnescape (htmlEscape a ++ b) from rfl]
      rw [ih, List.cons_append]
    by_cases h5 : c = squote
    · subst h5
      rw [show escChar squote = '&' :: '#' :: '0' :: '3' :: '9' :: ';' :: [] from rfl]
      rw [show ('&' :: '#' :: '0' :: '3' :: '9' :: ';' :: []) ++ (htmlEscape a ++ b) =
        '&' :: '#' :: '0' :: '3' :: '9' :: ';' :: (htmlEscape a ++ b) from rfl]
      rw [show htmlUnescape ('&' :: '#' :: '0' :: '3' :: '9' :: ';' :: (htmlEscape a ++ b)) =
        squote :: htmlUnescape (htmlEscape a ++ b) from rfl]
      rw [ih, List.cons_append]
    · rw [show escChar c = [c] from by simp [escChar, h1, h2, h3, h4, h5]]
      rw [List.singleton_append, htmlUnescape_cons c _ h1, ih, List.cons_append]

/-! Reconstruction of a matched stats line from its two groups. -/

theorem splitAtLastOpen_eq : ∀ {s a b : Str}, splitAtLastOpen s = some (a, b) →
    s = a ++ '(' :: b := by
  intro s
  induction s with
  | nil => intro a b h; simp [splitAtLastOpen] at h
  | cons c cs ih =>
    intro a b h
    have hunfold : splitAtLastOpen (c :: cs) =
        (match splitAtLastOpen cs with
          | some pf => some (c :: pf.1, pf.2)
          | none => if c = '(' then some ([], cs) else none) := rfl
    rw [hunfold] at h
    cases hs : splitAtLastOpen cs with
    | some pf =>
      rw [hs] at h
      simp only [Option.some.injEq, Prod.mk.injEq] at h
      obtain ⟨ha, hb⟩ := h
      have hcs : cs = pf.1 ++ '(' :: pf.2 := ih (by rw [hs])
      rw [← ha, ← hb, hcs, List.cons_append]
    | none =>
      rw [hs] at h
      by_cases hc : c = '('
      · rw [if_pos hc] at h
        simp only [Option.some.injEq, Prod.mk.injEq] at h
        obtain ⟨ha, hb⟩ := h
        rw [← ha, ← hb, hc, List.nil_append]
      · rw [if_neg hc] at h
        cases h

theorem statsLineMatch_some {line p f : Str} (hnl : line.getLast? = some '\n')
    (hm : statsLineMatch line = some (p, f)) :
    line = p ++ '(' :: (f ++ [')', '\n']) := by
  have hline : line.dropLast ++ ['\n'] = line :=
    List.dropLast_append_getLast? '\n' (by rw [hnl]; rfl)
  rw [statsLineMatch] at hm
  simp only [statsCore, hnl, if_pos] at hm
  by_cases h2 : (line.dropLast).getLast? = some ')'
  · rw [if_pos h2] at hm
    have hcore : (line.dropLast).dropLast ++ [')'] = line.dropLast :=
      List.dropLast_append_getLast? ')' (by rw [h2]; rfl)
    have hsplit : (line.dropLast).dropLast = p ++ '(' :: f := splitAtLastOpen_eq hm
    rw [← hline, ← hcore, hsplit]
    simp [List.append_assoc]
  · rw [if_neg h2] at hm
    cases hm

/-! Computation lemmas for `process_line` on data lines. -/

theorem process_line_data_some (q : List (Str × Str)) (line p f : Str) (pos : Nat)
    (hh : headerMatchB line = false) (hm : statsLineMatch line = some (p, f))
    (hig : f ∉ IGNORE_FUNC_NAMES) :
    process_line q line (some pos) =
      (htmlEscape (p.take pos) ++
        anchorA (get_updated_href q
          [(FUNC_LOC_KEY, some (p.drop pos)), (FUNC_NAME_KEY, some f)]) (p.drop pos) ++
        '(' :: (anchorA (get_updated_href q
          [(FUNC_LOC_KEY, none), (FUNC_NAME_KEY, some f)]) f ++ [')', '\n']),
       some pos) := by
  simp [process_line, hh, hm, hig]

theorem process_line_data_noinfo (q : List (Str × Str)) (line p f : Str)
    (hh : headerMatchB line = false) (hm : statsLineMatch line = some (p, f))
    (hig : f ∉ IGNORE_FUNC_NAMES) :
    process_line q line none =
      (htmlEscape p ++
        '(' :: (anchorA (get_updated_href q
          [(FUNC_LOC_KEY, none), (FUNC_NAME_KEY, some f)]) f ++ [')', '\n']),
       none) := by
  simp [process_line, hh, hm, hig]

theorem countLinks_name_only (p u f : Str) :
    countLinks (htmlEscape p ++ '(' :: (anchorA u f ++ [')', '\n'])) = 1 := by
  rw [countLinks_append_no_lt _ _ (not_lt_mem_htmlEscape p)]
  rw [countLinks_cons, if_neg (by simp)]
  rw [countLinks_anchorA]
  rfl

/-- Claim C1: a newline-terminated data line (a line not matching the
header pattern) whose parenthesized function-name field is non-empty
and not the reserved sentinel is formatted, once the function-signature
column offset is known, into exactly two hyperlinks (one over the
source-location portion, one over the bare function name), and the
visible text of the formatted line is exactly the original line. -/
theorem data_line_two_links (q : List (Str × Str)) (line p f : Str) (pos : Nat)
    (hh : headerMatchB line = false) (hm : statsLineMatch line = some (p, f))
    (hig : f ∉ IGNORE_FUNC_NAMES) (hnl : line.getLast? = some '\n') :
    countLinks (process_line q line (some pos)).1 = 2 ∧
      visibleText (process_line q line (some pos)).1 = line := by
  rw [process_line_data_some q line p f pos hh hm hig]
  constructor
  · show countLinks (htmlEscape (p.take pos) ++
      anchorA _ (p.drop pos) ++ '(' :: (anchorA _ f ++ [')', '\n'])) = 2
    rw [List.append_assoc]
    rw [countLinks_append_no_lt _ _ (not_lt_mem_htmlEscape _)]
    rw [countLinks_anchorA]
    rw [countLinks_cons, if_neg (by simp)]
    rw [countLinks_anchorA]
    rfl
  · show visibleText (htmlEscape (p.take pos) ++
      anchorA _ (p.drop pos) ++ '(' :: (anchorA _ f ++ [')', '\n'])) = line
    rw [visibleText, stripTags, List.append_assoc]
    rw [stripTagsAux_false_append _ _ (not_lt_mem_htmlEscape _)]
    rw [stripTags_anchorA]
    rw [stripTagsAux_false_cons _ _ (by decide)]
    rw [stripTags_anchorA]
    rw [show stripTagsAux false [')', '\n'] = [')', '\n'] from rfl]
    rw [← List.append_assoc, ← htmlEscape_append, List.take_append_drop]
    rw [htmlUnescape_escape_append]
    rw [htmlUnescape_cons _ _ (by decide)]
    rw [htmlUnescape_escape_append]
    rw [show htmlUnescape [')', '\n'] = [')', '\n'] from rfl]
    exact (statsLineMatch_some hnl hm).symm

/-- Claim C1 (witness): a concrete data line with a known
function-signature column offset. -/
theorem data_line_two_links_witness :
    headerMatchB ("a.py:1(f)\n".data) = false ∧
      statsLineMatch ("a.py:1(f)\n".data) = some (("a.py:1".data), ("f".data)) ∧
      ("f".data : Str) ∉ IGNORE_FUNC_NAMES ∧
      ("a.py:1(f)\n".data : Str).getLast? = some '\n' ∧
      countLinks (process_line [] ("a.py:1(f)\n".data) (some 2)).1 = 2 ∧
      visibleText (process_line [] ("a.py:1(f)\n".data) (some 2)).1 = "a.py:1(f)\n".data :=
  ⟨by decide, by decide, by decide, by decide,
    (data_line_two_links [] ("a.py:1(f)\n".data) ("a.py:1".data) ("f".data) 2
      (by decide) (by decide) (by decide) (by decide)).1,
    (data_line_two_links [] ("a.py:1(f)\n".data) ("a.py:1".data) ("f".data) 2
      (by decide) (by decide) (by decide) (by decide)).2⟩

/-! Report-level processing when the function-signature header marker
never occurs. -/

theorem process_line_snd_none (q : List (Str × Str)) (l : Str)
    (hfind : findSub FUNCTION_SIG_HEADER l = none) :
    (process_line q l none).2 = none := by
  rw [process_line]
  simp only [hfind, ite_self]
  split
  · rfl
  · split
    · rfl
    · rfl

theorem processLines_none (q : List (Str × Str)) (ls : List Str)
    (h : ∀ l ∈ ls, containsSub FUNCTION_SIG_HEADER l = false) :
    (processLines q none ls).2 = none ∧
      (processLines q none ls).1 = ls.map (fun l => (process_line q l none).1) := by
  induction ls with
  | nil => exact ⟨rfl, rfl⟩
  | cons l ls ih =>
    have hl := h l (List.mem_cons_self _ _)
    have hfind : findSub FUNCTION_SIG_HEADER l = none := by
      rw [containsSub] at hl
      cases hf : findSub FUNCTION_SIG_HEADER l
      · rfl
      · rw [hf] at hl; simp at hl
    have hinfo : (process_line q l none).2 = none := process_line_snd_none q l hfind
    have hstep : processLines q none (l :: ls) =
        ((process_line q l none).1 :: (processLines q (process_line q l none).2 ls).1,
          (processLines q (process_line q l none).2 ls).2) := rfl
    have ih' := ih (fun l' hl' => h l' (List.mem_cons_of_mem _ hl'))
    rw [hstep, hinfo]
    exact ⟨ih'.1, by rw [List.map_cons, ih'.2]⟩

/-- Claim C5: when the function-signature header marker
`filename:lineno(function)` never occurs in the raw report text,
formatting does not fail: the remembered column offset stays unset,
and every data line with a non-noise function name is still rewritten
with a single name-only link built from the bare function name — no
location link is produced. -/
theorem missing_header_marker_name_only (q : List (Str × Str)) (text : Str)
    (h : ∀ l ∈ splitlinesTrue text, containsSub FUNCTION_SIG_HEADER l = false) :
    (processLines q none (splitlinesTrue text)).2 = none ∧
      ∀ i p f, headerMatchB ((splitlinesTrue text).getD i []) = false →
        statsLineMatch ((splitlinesTrue text).getD i []) = some (p, f) →
        f ∉ IGNORE_FUNC_NAMES →
        (processLines q none (splitlinesTrue text)).1.getD i [] =
            htmlEscape p ++ '(' :: (anchorA (get_updated_href q
              [(FUNC_LOC_KEY, none), (FUNC_NAME_KEY, some f)]) f ++ [')', '\n']) ∧
          countLinks ((processLines q none (splitlinesTrue text)).1.getD i []) = 1 := by
  obtain ⟨h2, h1⟩ := processLines_none q (splitlinesTrue text) h
  refine ⟨h2, ?_⟩
  intro i p f hhB hsm hig
  by_cases hi : i < (splitlinesTrue text).length
  · have hgetD : (splitlinesTrue text).getD i [] = (splitlinesTrue text)[i] :=
      List.getD_eq_getElem _ _ hi
    rw [hgetD] at hhB hsm
    have hout : (processLines q none (splitlinesTrue text)).1.getD i [] =
        (process_line q ((splitlinesTrue text)[i]) none).1 := by
      rw [h1]
      rw [List.getD_eq_getElem _ _ (by simpa using hi)]
      rw [List.getElem_map]
    rw [hout, process_line_data_noinfo q _ p f hhB hsm hig]
    exact ⟨rfl, countLinks_name_only p _ f⟩
  · have hgetD : (splitlinesTrue text).getD i [] = [] :=
      List.getD_eq_default _ _ (by omega)
    rw [hgetD] at hsm
    rw [show statsLineMatch ([] : Str) = none from rfl] at hsm
    cases hsm

/-- Claim C5 (witness): a one-line report without the header marker. -/
theorem missing_header_marker_name_only_witness :
    (∀ l ∈ splitlinesTrue ("b.py:3(g)\n".data),
        containsSub FUNCTION_SIG_HEADER l = false) ∧
      (processLines [] none (splitlinesTrue ("b.py:3(g)\n".data))).2 = none ∧
      countLinks ((processLines [] none (splitlinesTrue ("b.py:3(g)\n".data))).1.getD 0 []) = 1 :=
  ⟨by decide,
    (missing_header_marker_name_only [] ("b.py:3(g)\n".data) (by decide)).1,
    ((missing_header_marker_name_only [] ("b.py:3(g)\n".data) (by decide)).2 0
      ("b.py:3".data) ("g".data) (by decide) (by decide) (by decide)).2⟩

/-! Semantics of the restriction patterns built by the controller. -/

theorem meta_subset_special : ∀ c ∈ REGEX_META, c ∈ SPECIAL_CHARS := by decide

theorem parseEscaped_cons (c : Char) (r : Str) (hc : c ≠ '\\') :
    parseEscaped (c :: r) =
      if c ∈ REGEX_META then none else (parseEscaped r).map (c :: ·) := by
  rw [parseEscaped.eq_def]
  split
  · rename_i heq; simp at heq
  · rename_i heq; injection heq with h1 h2; exact absurd h1 hc
  · rename_i heq
    injection heq with h1 h2
    subst h1; subst h2
    rfl

theorem parseEscaped_reEscape_append (s r : Str) :
    parseEscaped (reEscape s ++ r) = (parseEscaped r).map (s ++ ·) := by
  induction s with
  | nil =>
    rw [show reEscape [] = [] from rfl, List.nil_append]
    cases parseEscaped r <;> simp
  | cons c s ih =>
    have hre : reEscape (c :: s) =
        (if c ∈ SPECIAL_CHARS then ['\\', c] else [c]) ++ reEscape s := by
      simp [reEscape]
    rw [hre, List.append_assoc]
    by_cases hc : c ∈ SPECIAL_CHARS
    · rw [if_pos hc]
      rw [show (['\\', c] ++ (reEscape s ++ r)) = '\\' :: c :: (reEscape s ++ r) from rfl]
      rw [show parseEscaped ('\\' :: c :: (reEscape s ++ r)) =
        (parseEscaped (reEscape s ++ r)).map (c :: ·) from rfl]
      rw [ih]
      cases parseEscaped r <;> simp
    · rw [if_neg hc]
      rw [show ([c] ++ (reEscape s ++ r)) = c :: (reEscape s ++ r) from rfl]
      have hbs : c ≠ '\\' := fun h => hc (h ▸ (by decide : '\\' ∈ SPECIAL_CHARS))
      rw [parseEscaped_cons c _ hbs,
        if_neg (fun hmeta => hc (meta_subset_special c hmeta)), ih]
      cases parseEscaped r <;> simp

theorem findSub_isSome_of_occurs {pat s : Str} (h : pat <:+: s) :
    (findSub pat s).isSome = true := by
  induction s with
  | nil =>
    have : pat = [] := List.eq_nil_of_infix_nil h
    subst this
    rw [show findSub [] [] = some 0 from rfl]
    rfl
  | cons c cs ih =>
    rcases List.infix_cons_iff.mp h with hp | hi
    · rw [findSub, if_pos (List.isPrefixOf_iff_prefix.mpr hp)]
      rfl
    · rw [findSub]
      by_cases hp : pat.isPrefixOf (c :: cs)
      · rw [if_pos hp]; rfl
      · rw [if_neg hp]
        have := ih hi
        cases hf : findSub pat cs
        · rw [hf] at this; cases this
        · rfl

theorem infix_of_findSub_some {pat s : Str} (h : (findSub pat s).isSome = true) :
    pat <:+: s := by
  induction s with
  | nil =>
    rw [findSub] at h
    by_cases hp : pat.isPrefixOf ([] : Str)
    · exact (List.isPrefixOf_iff_prefix.mp hp).isInfix
    · rw [if_neg hp] at h; cases h
  | cons c cs ih =>
    rw [findSub] at h
    by_cases hp : pat.isPrefixOf (c :: cs)
    · exact (List.isPrefixOf_iff_prefix.mp hp).isInfix
    · rw [if_neg hp] at h
      have : (findSub pat cs).isSome = true := by
        cases hf : findSub pat cs
        · rw [hf] at h; cases h
        · rfl
      exact List.infix_cons_iff.mpr (Or.inr (ih this))

theorem containsSub_iff (pat s : Str) : containsSub pat s = true ↔ pat <:+: s :=
  ⟨fun h => infix_of_findSub_some h, fun h => findSub_isSome_of_occurs h⟩

/-- Splitting on a separator character that occurs in neither part is
injective. -/
theorem append_sep_inj {x : Char} : ∀ {a b u v : Str}, x ∉ a → x ∉ b →
    a ++ x :: u = b ++ x :: v → a = b ∧ u = v := by
  intro a
  induction a with
  | nil =>
    intro b u v _ hb h
    cases b with
    | nil => simpa using h
    | cons c bs =>
      rw [List.nil_append, List.cons_append] at h
      injection h with h1 h2
      exact absurd (h1 ▸ List.mem_cons_self c bs) hb
  | cons c as ih =>
    intro b u v ha hb h
    cases b with
    | nil =>
      rw [List.cons_append, List.nil_append] at h
      injection h with h1 h2
      exact absurd (h1 ▸ List.mem_cons_self c as) ha
    | cons d bs =>
      rw [List.cons_append, List.cons_append] at h
      injection h with h1 h2
      have ha' : x ∉ as := fun hm => ha (List.mem_cons_of_mem _ hm)
      have hb' : x ∉ bs := fun hm => hb (List.mem_cons_of_mem _ hm)
      obtain ⟨hab, huv⟩ := ih ha' hb' h2
      exact ⟨by rw [h1, hab], huv⟩

/-- The name pattern `(n)` occurs in a well-formed signature
`floc(fname)` exactly when the selected name equals the signature's
function name — an exact match, not a substring match. -/
theorem paren_infix_iff (floc fname n : Str)
    (h1 : '(' ∉ floc) (h2 : '(' ∉ fname) (h3 : ')' ∉ fname) :
    ('(' :: (n ++ [')'])) <:+: (floc ++ '(' :: (fname ++ [')'])) ↔ n = fname := by
  constructor
  · intro hinf
    obtain ⟨s, t, hst⟩ := hinf
    have hfl : List.count '(' floc = 0 := List.count_eq_zero.mpr h1
    have hfn : List.count '(' fname = 0 := List.count_eq_zero.mpr h2
    have hcount := congrArg (List.count '(') hst
    simp [List.count_append, List.count_cons, hfl, hfn] at hcount
    have hs : '(' ∉ s := List.count_eq_zero.mp (by omega)
    have hrearr : s ++ '(' :: ((n ++ [')']) ++ t) = floc ++ '(' :: (fname ++ [')']) := by
      rw [← hst]; simp [List.append_assoc]
    obtain ⟨hsf, hrest⟩ := append_sep_inj hs h1 hrearr
    have hrest' : n ++ ')' :: t = fname ++ ')' :: ([] : Str) := by
      rw [← hrest]; simp
    have hfn2 : List.count ')' fname = 0 := List.count_eq_zero.mpr h3
    have hcount2 := congrArg (List.count ')') hrest'
    simp [List.count_append, List.count_cons, hfn2] at hcount2
    have hn2 : ')' ∉ n := List.count_eq_zero.mp (by omega)
    exact (append_sep_inj hn2 h3 hrest').1
  · intro h
    subst h
    exact ⟨floc, [], by simp⟩

theorem regexSearch_name (f s : Str) :
    regexSearch ('\\' :: '(' :: (reEscape f ++ ['\\', ')'])) s =
      containsSub ('(' :: (f ++ [')'])) s := by
  have hparse : parseEscaped ('\\' :: '(' :: (reEscape f ++ ['\\', ')'])) =
      some ('(' :: (f ++ [')'])) := by
    rw [show parseEscaped ('\\' :: '(' :: (reEscape f ++ ['\\', ')'])) =
      (parseEscaped (reEscape f ++ ['\\', ')'])).map ('(' :: ·) from rfl]
    rw [parseEscaped_reEscape_append]
    rw [show parseEscaped (['\\', ')'] : Str) = some [')'] from rfl]
    rfl
  rw [show regexSearch ('\\' :: '(' :: (reEscape f ++ ['\\', ')'])) s =
    (match parseEscaped ('\\' :: '(' :: (reEscape f ++ ['\\', ')'])) with
      | some lit => containsSub lit s
      | none => false) from rfl]
  rw [hparse]

theorem regexSearch_loc (l s : Str) :
    regexSearch ('^' :: reEscape l) s = l.isPrefixOf s := by
  have hparse : parseEscaped (reEscape l) = some l := by
    have := parseEscaped_reEscape_append l []
    rw [List.append_nil] at this
    rw [this]
    simp [parseEscaped]
  rw [show regexSearch ('^' :: reEscape l) s =
    (match parseEscaped (reEscape l) with
      | some lit => lit.isPrefixOf s
      | none => false) from rfl]
  rw [hparse]

/-- Claim C7: for a selected function name and location (both
non-empty), the controller builds the escaped, anchored restrictions
`\(name\)` and `^loc`; applied together to a well-formed signature
`floc(fname)` (successive narrowing passes), they keep the signature
exactly when the selected name equals the signature's function name
(exact match, not substring) and the selected location is literally a
prefix of the signature. -/
theorem restrictions_exact_name_and_loc_prefix (n l floc fname : Str)
    (hn : n ≠ []) (hl : l ≠ [])
    (h1 : '(' ∉ floc) (h2 : '(' ∉ fname) (h3 : ')' ∉ fname) :
    applyRestrictions (restrictionsOf n l) [floc ++ '(' :: (fname ++ [')'])] =
      if fname = n ∧ l <+: (floc ++ '(' :: (fname ++ [')'])) then
        [floc ++ '(' :: (fname ++ [')'])]
      else [] := by
  have hres : restrictionsOf n l =
      [('\\' :: '(' :: (reEscape n ++ ['\\', ')'])), ('^' :: reEscape l)] := by
    simp [restrictionsOf, hn, hl]
  rw [hres]
  have happ : applyRestrictions
      [('\\' :: '(' :: (reEscape n ++ ['\\', ')'])), ('^' :: reEscape l)]
      [floc ++ '(' :: (fname ++ [')'])] =
      (([floc ++ '(' :: (fname ++ [')'])].filter
        (fun s => regexSearch ('\\' :: '(' :: (reEscape n ++ ['\\', ')'])) s)).filter
        (fun s => regexSearch ('^' :: reEscape l) s)) := rfl
  rw [happ]
  by_cases hname : fname = n
  · have hsearch : regexSearch ('\\' :: '(' :: (reEscape n ++ ['\\', ')']))
        (floc ++ '(' :: (fname ++ [')'])) = true := by
      rw [regexSearch_name, containsSub_iff]
      exact (paren_infix_iff floc fname n h1 h2 h3).mpr hname.symm
    rw [List.filter_singleton, hsearch, cond_true]
    by_cases hpre : l <+: (floc ++ '(' :: (fname ++ [')']))
    · have hsearch2 : regexSearch ('^' :: reEscape l)
          (floc ++ '(' :: (fname ++ [')'])) = true := by
        rw [regexSearch_loc]
        exact List.isPrefixOf_iff_prefix.mpr hpre
      rw [List.filter_singleton, hsearch2, cond_true, if_pos ⟨hname, hpre⟩]
    · have hsearch2 : regexSearch ('^' :: reEscape l)
          (floc ++ '(' :: (fname ++ [')'])) = false := by
        rw [regexSearch_loc]
        cases hb : List.isPrefixOf l (floc ++ '(' :: (fname ++ [')']))
        · rfl
        · exact absurd (List.isPrefixOf_iff_prefix.mp hb) hpre
      rw [List.filter_singleton, hsearch2, cond_false,
        if_neg (fun hand => hpre hand.2)]
  · have hsearch : regexSearch ('\\' :: '(' :: (reEscape n ++ ['\\', ')']))
        (floc ++ '(' :: (fname ++ [')'])) = false := by
      rw [regexSearch_name]
      cases hcs : containsSub ('(' :: (n ++ [')'])) (floc ++ '(' :: (fname ++ [')']))
      · rfl
      · exact absurd (((paren_infix_iff floc fname n h1 h2 h3).mp
          ((containsSub_iff _ _).mp hcs)).symm) hname
    rw [List.filter_singleton, hsearch, cond_false, List.filter_nil,
      if_neg (fun hand => hname hand.1)]

/-- Claim C7 (witness): a concrete selection matching a concrete
signature. -/
theorem restrictions_exact_name_and_loc_prefix_witness :
    (("bar".data : Str) ≠ []) ∧ (("foo.py:10".data : Str) ≠ []) ∧
      ('(' ∉ ("foo.py:10".data : Str)) ∧ ('(' ∉ ("bar".data : Str)) ∧
      (')' ∉ ("bar".data : Str)) ∧
      applyRestrictions (restrictionsOf ("bar".data) ("foo.py:10".data))
          [("foo.py:10".data : Str) ++ '(' :: (("bar".data : Str) ++ [')'])] =
        (if ("bar".data : Str) = "bar".data ∧
            ("foo.py:10".data : Str) <+:
              (("foo.py:10".data : Str) ++ '(' :: (("bar".data : Str) ++ [')'])) then
          [("foo.py:10".data : Str) ++ '(' :: (("bar".data : Str) ++ [')'])]
        else []) :=
  ⟨by decide, by decide, by decide, by decide, by decide,
    restrictions_exact_name_and_loc_prefix ("bar".data) ("foo.py:10".data)
      ("foo.py:10".data) ("bar".data) (by decide) (by decide) (by decide)
      (by decide) (by decide)⟩

/-! Association-list lemmas for the idempotence of link-target
construction. -/

theorem keysOf_toOpt (q : List (Str × Str)) : keysOf (toOpt q) = keysOf q := by
  simp [keysOf, toOpt]

theorem strip_toOpt (q : List (Str × Str)) : strip (toOpt q) = q := by
  induction q with
  | nil => rfl
  | cons p ps ih => simp [strip, toOpt] at ih ⊢; exact ih

theorem strip_append (a b : List (Str × Option Str)) :
    strip (a ++ b) = strip a ++ strip b := by
  simp [strip]

theorem mem_strip {k : Str} {v : Str} {m : List (Str × Option Str)} :
    (k, v) ∈ strip m ↔ (k, some v) ∈ m := by
  induction m with
  | nil => simp [strip]
  | cons p ps ih =>
    obtain ⟨k', v'⟩ := p
    cases v' with
    | none =>
      simp only [strip, List.filterMap_cons, Option.map_none', List.mem_cons] at *
      constructor
      · intro h; exact Or.inr (ih.mp h)
      · intro h
        rcases h with h | h
        · cases h
        · exact ih.mpr h
    | some w =>
      simp only [strip, List.filterMap_cons, Option.map_some', List.mem_cons] at *
      constructor
      · intro h
        rcases h with h | h
        · injection h with h1 h2; subst h1; subst h2; exact Or.inl rfl
        · exact Or.inr (ih.mp h)
      · intro h
        rcases h with h | h
        · injection h with h1 h2; subst h1
          injection h2 with h2'; subst h2'; exact Or.inl rfl
        · exact Or.inr (ih.mpr h)

theorem keysOf_strip_sublist (m : List (Str × Option Str)) :
    List.Sublist (keysOf (strip m)) (keysOf m) := by
  induction m with
  | nil => simp [strip, keysOf]
  | cons p ps ih =>
    obtain ⟨k, v⟩ := p
    cases v with
    | none =>
      simp only [strip, keysOf, List.filterMap_cons, Option.map_none', List.map_cons] at *
      exact ih.trans (List.sublist_cons_self _ _)
    | some w =>
      simp only [strip, keysOf, List.filterMap_cons, Option.map_some', List.map_cons] at *
      exact ih.cons₂ _

theorem lookupS_eq_of_mem {k : Str} {v : Option Str} {kv : List (Str × Option Str)}
    (hnd : (keysOf kv).Nodup) (hm : (k, v) ∈ kv) : lookupS k kv = some v := by
  induction kv with
  | nil => cases hm
  | cons p ps ih =>
    rcases List.mem_cons.mp hm with h | h
    · subst h
      rw [lookupS, if_pos rfl]
    · have hk : p.1 ≠ k := by
        intro hkk
        have : k ∈ keysOf ps := List.mem_map.mpr ⟨(k, v), h, rfl⟩
        rw [keysOf, List.map_cons] at hnd
        exact (List.nodup_cons.mp hnd).1 (hkk ▸ this)
      rw [lookupS, if_neg hk]
      exact ih (by rw [keysOf, List.map_cons] at hnd; exact (List.nodup_cons.mp hnd).2) h

theorem lookupS_eq_none {k : Str} {kv : List (Str × Option Str)}
    (hk : k ∉ keysOf kv) : lookupS k kv = none := by
  induction kv with
  | nil => rfl
  | cons p ps ih =>
    have h1 : p.1 ≠ k := fun h =>
      hk (by rw [keysOf, List.map_cons]; exact h ▸ List.mem_cons_self _ _)
    rw [lookupS, if_neg h1]
    exact ih (fun h => hk (by rw [keysOf, List.map_cons]; exact List.mem_cons_of_mem _ h))

theorem dictSet_of_not_mem {k : Str} {v : Option Str} {m : List (Str × Option Str)}
    (hk : k ∉ keysOf m) : dictSet m k v = m ++ [(k, v)] := by
  induction m with
  | nil => rfl
  | cons p ps ih =>
    have h1 : p.1 ≠ k := fun h =>
      hk (by rw [keysOf, List.map_cons]; exact h ▸ List.mem_cons_self _ _)
    rw [dictSet, if_neg h1, List.cons_append,
      ih (fun h => hk (by rw [keysOf, List.map_cons]; exact List.mem_cons_of_mem _ h))]

theorem map_upd_id {k : Str} {m : List (Str × Option Str)} {v : Option Str}
    (hk : k ∉ keysOf m) :
    m.map (fun p => if p.1 = k then (k, v) else p) = m := by
  induction m with
  | nil => rfl
  | cons p ps ih =>
    have h1 : p.1 ≠ k := fun h =>
      hk (by rw [keysOf, List.map_cons]; exact h ▸ List.mem_cons_self _ _)
    rw [List.map_cons, if_neg h1,
      ih (fun h => hk (by rw [keysOf, List.map_cons]; exact List.mem_cons_of_mem _ h))]

theorem dictSet_of_mem {k : Str} {v : Option Str} {m : List (Str × Option Str)}
    (hnd : (keysOf m).Nodup) (hk : k ∈ keysOf m) :
    dictSet m k v = m.map (fun p => if p.1 = k then (k, v) else p) := by
  induction m with
  | nil => cases hk
  | cons p ps ih =>
    rw [keysOf, List.map_cons, List.nodup_cons] at hnd
    by_cases h1 : p.1 = k
    · rw [dictSet, if_pos h1, List.map_cons, if_pos h1]
      rw [map_upd_id (h1 ▸ hnd.1)]
    · have hk' : k ∈ keysOf ps := by
        rcases List.mem_cons.mp (by rw [keysOf, List.map_cons] at hk; exact hk) with h | h
        · exact absurd h.symm h1
        · exact h
      rw [dictSet, if_neg h1, List.map_cons, if_neg h1, ih hnd.2 hk']

theorem keysOf_map_upd (k : Str) (v : Option Str) (m : List (Str × Option Str)) :
    keysOf (m.map (fun p => if p.1 = k then (k, v) else p)) = keysOf m := by
  rw [keysOf, keysOf, List.map_map]
  apply List.map_congr_left
  intro p _
  by_cases h1 : p.1 = k
  · simp [Function.comp, h1]
  · simp [Function.comp, h1]

/-- Characterization of the overlay loop for duplicate-free dicts:
existing keys are updated in place, fresh keys are appended in overlay
order. -/
theorem overlay_char : ∀ (kv m : List (Str × Option Str)),
    (keysOf m).Nodup → (keysOf kv).Nodup →
    applyOverlay m kv =
      m.map (updBy kv) ++ kv.filter (fun p => decide (p.1 ∉ keysOf m)) := by
  intro kv
  induction kv with
  | nil =>
    intro m _ _
    simp only [applyOverlay, List.foldl_nil, List.filter_nil, List.append_nil]
    have h0 : m.map (updBy ([] : List (Str × Option Str))) = m.map id :=
      List.map_congr_left (fun p _ => by simp [updBy, lookupS])
    rw [h0, List.map_id]
  | cons hd kv ih =>
    intro m hm hkv
    obtain ⟨k, v⟩ := hd
    rw [keysOf, List.map_cons, List.nodup_cons, ← keysOf] at hkv
    have hstep : applyOverlay m ((k, v) :: kv) = applyOverlay (dictSet m k v) kv := rfl
    rw [hstep]
    by_cases hk : k ∈ keysOf m
    · rw [dictSet_of_mem hm hk]
      have hkeys : keysOf ((m.map (fun p => if p.1 = k then (k, v) else p))) = keysOf m :=
        keysOf_map_upd k v m
      rw [ih _ (by rw [hkeys]; exact hm) hkv.2, hkeys]
      have hmap : (m.map (fun p => if p.1 = k then (k, v) else p)).map (updBy kv) =
          m.map (updBy ((k, v) :: kv)) := by
        rw [List.map_map]
        apply List.map_congr_left
        intro p _
        by_cases h1 : p.1 = k
        · have hlk2 : lookupS k kv = none := lookupS_eq_none hkv.1
          simp [Function.comp, updBy, h1, hlk2]
          rw [show lookupS k ((k, v) :: kv) = some v from by rw [lookupS, if_pos rfl]]
        · have hlk : lookupS p.1 ((k, v) :: kv) = lookupS p.1 kv := by
            rw [lookupS, if_neg (fun h => h1 h.symm)]
          simp [Function.comp, updBy, h1, hlk]
      have hfilt : ((k, v) :: kv).filter (fun p => decide (p.1 ∉ keysOf m)) =
          kv.filter (fun p => decide (p.1 ∉ keysOf m)) := by
        rw [List.filter_cons]
        simp [hk]
      rw [hmap, hfilt]
    · rw [dictSet_of_not_mem hk]
      have hkeys : keysOf (m ++ [(k, v)]) = keysOf m ++ [k] := by
        simp [keysOf]
      have hnd' : (keysOf (m ++ [(k, v)])).Nodup := by
        rw [hkeys]
        apply List.Nodup.append hm (List.nodup_singleton k)
        intro a ha hb
        rw [List.mem_singleton] at hb
        exact hk (hb ▸ ha)
      rw [ih _ hnd' hkv.2, hkeys]
      have hmapapp : (m ++ [(k, v)]).map (updBy kv) =
          m.map (updBy kv) ++ [updBy kv (k, v)] := by
        rw [List.map_append, List.map_cons, List.map_nil]
      have hupd : updBy kv (k, v) = (k, v) := by
        simp [updBy, lookupS_eq_none hkv.1]
      have hmap : m.map (updBy kv) = m.map (updBy ((k, v) :: kv)) := by
        apply List.map_congr_left
        intro p hp
        have h1 : p.1 ≠ k := fun h =>
          hk (h ▸ List.mem_map.mpr ⟨p, hp, rfl⟩)
        have hlk : lookupS p.1 ((k, v) :: kv) = lookupS p.1 kv := by
          rw [lookupS, if_neg (fun h => h1 h.symm)]
        simp [updBy, hlk]
      have hfiltr : kv.filter (fun p => decide (p.1 ∉ keysOf m ++ [k])) =
          kv.filter (fun p => decide (p.1 ∉ keysOf m)) := by
        apply List.filter_congr
        intro p hp
        have h1 : p.1 ≠ k := fun h =>
          hkv.1 (h ▸ List.mem_map.mpr ⟨p, hp, rfl⟩)
        simp [List.mem_append, h1]
      have hfilt2 : ((k, v) :: kv).filter (fun p => decide (p.1 ∉ keysOf m)) =
          (k, v) :: kv.filter (fun p => decide (p.1 ∉ keysOf m)) := by
        rw [List.filter_cons]
        simp [hk]
      rw [hmapapp, hupd, hmap, hfiltr, hfilt2]
      simp

theorem keysOf_map_updBy (kv m : List (Str × Option Str)) :
    keysOf (m.map (updBy kv)) = keysOf m := by
  rw [keysOf, keysOf, List.map_map]
  apply List.map_congr_left
  intro p _
  show (updBy kv p).1 = p.1
  cases hl : lookupS p.1 kv <;> simp [updBy, hl]

theorem overlay_keys_nodup (q : List (Str × Str)) (kv : List (Str × Option Str))
    (hq : (keysOf q).Nodup) (hkv : (keysOf kv).Nodup) :
    (keysOf (applyOverlay (toOpt q) kv)).Nodup := by
  have hQnd : (keysOf (toOpt q)).Nodup := by rw [keysOf_toOpt]; exact hq
  rw [overlay_char kv (toOpt q) hQnd hkv]
  rw [keysOf, List.map_append, ← keysOf, ← keysOf]
  rw [keysOf_map_updBy, keysOf_toOpt]
  have hsub : List.Sublist (keysOf (kv.filter (fun p => decide (p.1 ∉ keysOf q))))
      (keysOf kv) := by
    rw [keysOf, keysOf]
    exact List.Sublist.map _ (List.filter_sublist kv)
  apply List.Nodup.append hq (hsub.nodup hkv)
  intro a ha hb
  rw [keysOf] at hb
  obtain ⟨p, hp, hpa⟩ := List.mem_map.mp hb
  have hpf := List.mem_filter.mp hp
  have hnot : p.1 ∉ keysOf q := of_decide_eq_true hpf.2
  exact hnot (hpa ▸ ha)

/-- Reapplying the overlay to the parameter map produced by one
application (overlay, then drop the absent keys) changes nothing
observable: the serialized parameter lists coincide. -/
theorem strip_overlay_twice (q : List (Str × Str)) (kv : List (Str × Option Str))
    (hq : (keysOf q).Nodup) (hkv : (keysOf kv).Nodup) :
    strip (applyOverlay (toOpt (strip (applyOverlay (toOpt q) kv))) kv) =
      strip (applyOverlay (toOpt q) kv) := by
  have hQnd : (keysOf (toOpt q)).Nodup := by rw [keysOf_toOpt]; exact hq
  have hchar1 := overlay_char kv (toOpt q) hQnd hkv
  have hM1nd : (keysOf (applyOverlay (toOpt q) kv)).Nodup := overlay_keys_nodup q kv hq hkv
  have hS1nd : (keysOf (strip (applyOverlay (toOpt q) kv))).Nodup :=
    (keysOf_strip_sublist _).nodup hM1nd
  have hS1nd' : (keysOf (toOpt (strip (applyOverlay (toOpt q) kv)))).Nodup := by
    rw [keysOf_toOpt]; exact hS1nd
  rw [overlay_char kv _ hS1nd' hkv, strip_append]
  -- membership in the strip of the first overlay
  have hmemS1 : ∀ k w, (k, w) ∈ strip (applyOverlay (toOpt q) kv) →
      lookupS k kv = none ∨ lookupS k kv = some (some w) := by
    intro k w hmem
    have hmem1 : (k, some w) ∈ applyOverlay (toOpt q) kv := mem_strip.mp hmem
    rw [hchar1] at hmem1
    rcases List.mem_append.mp hmem1 with hin | hin
    · obtain ⟨p0, hp0, hupd⟩ := List.mem_map.mp hin
      have hkey : p0.1 = k := by
        have : (updBy kv p0).1 = p0.1 := by
          cases hl : lookupS p0.1 kv <;> simp [updBy, hl]
        rw [hupd] at this
        exact this.symm
      cases hl : lookupS p0.1 kv with
      | none => rw [← hkey]; exact Or.inl hl
      | some u =>
        have : updBy kv p0 = (p0.1, u) := by simp [updBy, hl]
        rw [hupd] at this
        injection this with hth1 hth2
        rw [← hkey, hl, hth2]
        exact Or.inr rfl
    · have hkv' : (k, some w) ∈ kv := (List.mem_filter.mp hin).1
      exact Or.inr (lookupS_eq_of_mem hkv hkv')
  -- Claim A: the second overlay leaves the surviving entries unchanged
  have hA : (toOpt (strip (applyOverlay (toOpt q) kv))).map (updBy kv) =
      toOpt (strip (applyOverlay (toOpt q) kv)) := by
    have h0 : (toOpt (strip (applyOverlay (toOpt q) kv))).map (updBy kv) =
        (toOpt (strip (applyOverlay (toOpt q) kv))).map id := by
      apply List.map_congr_left
      intro pp hpp
      obtain ⟨p1, hp1, hpe⟩ := List.mem_map.mp hpp
      obtain ⟨k, w⟩ := p1
      rcases hmemS1 k w hp1 with hl | hl
      · rw [← hpe]; simp [updBy, hl]
      · rw [← hpe]; simp [updBy, hl]
    rw [h0, List.map_id]
  -- Claim B: every key the overlay re-adds was dropped, so it is
  -- re-dropped: nothing of the filtered part survives the strip
  have hB : strip (kv.filter
      (fun p => decide (p.1 ∉ keysOf (toOpt (strip (applyOverlay (toOpt q) kv)))))) = [] := by
    rw [strip]
    rw [List.filterMap_eq_nil_iff]
    intro p hp
    have hpf := List.mem_filter.mp hp
    have hnotin : p.1 ∉ keysOf (strip (applyOverlay (toOpt q) kv)) := by
      have := of_decide_eq_true hpf.2
      rw [keysOf_toOpt] at this
      exact this
    cases hpv : p.2 with
    | none => rfl
    | some x =>
      exfalso
      have hpkv : (p.1, some x) ∈ kv := by
        have : p = (p.1, some x) := Prod.ext rfl hpv
        rw [← this]
        exact hpf.1
      have hlk : lookupS p.1 kv = some (some x) := lookupS_eq_of_mem hkv hpkv
      have hgoal : (p.1, some x) ∈ applyOverlay (toOpt q) kv := by
        rw [hchar1]
        by_cases hq1 : p.1 ∈ keysOf q
        · obtain ⟨p0, hp0, hp0k⟩ := List.mem_map.mp hq1
          apply List.mem_append.mpr
          apply Or.inl
          apply List.mem_map.mpr
          refine ⟨(p.1, some p0.2), ?_, ?_⟩
          · rw [toOpt, List.mem_map]
            exact ⟨p0, hp0, by rw [hp0k]⟩
          · simp [updBy, hlk]
        · apply List.mem_append.mpr
          apply Or.inr
          apply List.mem_filter.mpr
          refine ⟨hpkv, ?_⟩
          rw [decide_eq_true_eq, keysOf_toOpt]
          exact hq1
      exact hnotin (List.mem_map.mpr ⟨(p.1, x), mem_strip.mpr hgoal, rfl⟩)
  rw [hA, hB, List.append_nil, strip_toOpt]

/-- Claim C8: the link-target construction rule is idempotent — the
parameter map encoded by a built link target (current parameters with
the overlay applied and absent keys dropped), run through the rule
again with the same overlay, yields the same query string. -/
theorem href_idempotent (q : List (Str × Str)) (kv : List (Str × Option Str))
    (hq : (keysOf q).Nodup) (hkv : (keysOf kv).Nodup) :
    get_updated_href (strip (applyOverlay (toOpt q) kv)) kv = get_updated_href q kv := by
  rw [get_updated_href, get_updated_href,
    serializeQuery_eq_strip, serializeQuery_eq_strip,
    strip_overlay_twice q kv hq hkv]

/-- Claim C8 (witness): a concrete query and overlay. -/
theorem href_idempotent_witness :
    (keysOf ([((SORT_KEY), ("calls".data))] : List (Str × Str))).Nodup ∧
      (keysOf ([((FUNC_NAME_KEY), some ("foo".data)), ((FUNC_LOC_KEY), none)] :
        List (Str × Option Str))).Nodup ∧
      get_updated_href
          (strip (applyOverlay (toOpt [((SORT_KEY), ("calls".data))])
            [((FUNC_NAME_KEY), some ("foo".data)), ((FUNC_LOC_KEY), none)]))
          [((FUNC_NAME_KEY), some ("foo".data)), ((FUNC_LOC_KEY), none)] =
        get_updated_href [((SORT_KEY), ("calls".data))]
          [((FUNC_NAME_KEY), some ("foo".data)), ((FUNC_LOC_KEY), none)] :=
  ⟨by decide, by decide,
    href_idempotent [((SORT_KEY), ("calls".data))]
      [((FUNC_NAME_KEY), some ("foo".data)), ((FUNC_LOC_KEY), none)]
      (by decide) (by decide)⟩

end Cprofilev
